import Mathlib

/-!
Verification of the doubly-linked `List` container in `src/list.cpp`.

Two embeddings are used, both translated directly from the C++ source:

* A sequence model for the operations whose claims are about element order
  and error reporting (`insert`, `erase`, `merge`, `sort`).  A list object is
  its sequence of values (`List Int`) and a cursor into it is an index
  `0 ≤ i ≤ length`, with `i = length` standing for the end cursor (the
  sentinel `&base_node_`).  Node identity of a cursor is index identity, which
  is faithful for cursors into one and the same list.

* A pointer/heap model for the operations whose claims are about the link
  fields themselves (`splice`, `swap`, the cycle invariant).  Nodes live at
  natural-number addresses in an association-list heap; each node carries its
  `prev` and `next` address and its value (the value slot of a sentinel is a
  dummy that is never meaningful, mirroring `Base_node`).  Every pointer read
  and write of the C++ statements is threaded through the heap in exact
  program order.
-/

/-! ## Sequence model -/

/-- Error kinds of `List::erase`, from the spec taxonomy: the
`std::logic_error("Cannot erase from the base node")` throw is
`invalidPosition`, the `std::out_of_range("Cannot erase from an empty list.")`
throw is `emptyContainer`. -/
inductive ListErr where
  | invalidPosition
  | emptyContainer
deriving DecidableEq, Repr

/-- `List::insert(pos, value)` (src/list.cpp:312): link a fresh node holding
`v` immediately before the node at cursor `pos`; the new node ends up at index
`pos`, which is also the returned cursor. -/
def insertAt (l : List Int) (pos : Nat) (v : Int) : List Int :=
  l.take pos ++ v :: l.drop pos

/-- `List::insert(pos, count, value)` (src/list.cpp:324): `iter` starts at
`pos` and the loop body `iter = insert(iter, value)` runs `count` times; each
single insert puts the new node at the index `iter` and returns that index, so
the cursor value never moves. -/
def insertCount (l : List Int) (pos : Nat) (count : Nat) (v : Int) :
    List Int × Nat :=
  match count with
  | 0 => (l, pos)
  | n + 1 => insertCount (insertAt l pos v) pos n v

/-- `List::insert(pos, first, last)` (src/list.cpp:334): the loop walks the
source range backwards, from `std::prev(last)` down to `first`, doing
`ret_iter = insert(ret_iter, *it)` at each step.  `List.foldr` visits the
source elements in exactly that order. -/
def insertRange (l : List Int) (pos : Nat) (src : List Int) :
    List Int × Nat :=
  src.foldr (fun v st => (insertAt st.1 st.2 v, st.2)) (l, pos)

/-- `List::erase(pos)` (src/list.cpp:344).  The checks run in source order:
first `pos.ptr_ == &base_node_` (the end cursor, index `l.length`), then
`empty()`.  Otherwise the node is unlinked and the cursor to its former
successor — index `pos` of the shortened list — is returned. -/
def eraseAt (l : List Int) (pos : Nat) : Except ListErr (List Int × Nat) :=
  if pos = l.length then .error .invalidPosition
  else if l.length = 0 then .error .emptyContainer
  else .ok (l.take pos ++ l.drop (pos + 1), pos)

/-- `List::erase(first, last)` (src/list.cpp:363).  Source order of checks:
either bound equal to `&base_node_` (the end cursor) throws, then
`first == last` returns `last` unchanged, then the nodes of `[first, last)`
are unlinked and freed and the cursor to the node of `last` (now at index
`first`) is returned.  The last branch transcribes the defined case
`first ≤ last` of the pointer walk. -/
def eraseRange (l : List Int) (first last : Nat) :
    Except ListErr (List Int × Nat) :=
  if first = l.length ∨ last = l.length then .error .invalidPosition
  else if first = last then .ok (l, last)
  else .ok (l.take first ++ l.drop last, first)

/-- Inner phase of `List::merge` (src/list.cpp:447) for one fixed `*it2 = x`:
while `it1 != end()` and not `*it2 < *it1`, the loop takes the `++it1` branch;
on `it1 == end() || *it2 < *it1` it does `insert(it1, *it2)`, which appends
`x` to the prefix before `it1` and leaves `it1` in place.  State: `acc` is the
part of `self` before `it1`, `rest1` the part from `it1` on. -/
def mergeStep (acc rest1 : List Int) (x : Int) : List Int × List Int :=
  match rest1 with
  | [] => (acc ++ [x], [])
  | y :: r1 => if x < y then (acc ++ [x], y :: r1)
               else mergeStep (acc ++ [y]) r1 x

/-- Outer loop of `List::merge` (src/list.cpp:447): `while (it2 !=
other.end())`; each iteration consumes the head of `other` (the
`it2 = other.erase(it2)` advance) after `mergeStep` has placed it.  Returns
the final sequences of `self` and of `other`. -/
def mergeLoop (acc rest1 : List Int) : List Int → List Int × List Int
  | [] => (acc ++ rest1, [])
  | x :: r2 => mergeLoop (mergeStep acc rest1 x).1 (mergeStep acc rest1 x).2 r2

/-- `List::merge(other)` (src/list.cpp:447): `it1 = begin()` means the prefix
before `it1` starts empty. -/
def listMerge (l1 l2 : List Int) : List Int × List Int :=
  mergeLoop [] l1 l2

/-- The stable sorted merge in the words of the spec (section 4.5): walk both
sorted sequences; when the element of `other` is not strictly less than the
element of `self`, the self-resident element is kept first, so equal elements
of `self` precede equal elements of `other`.  This definition is the spec
side of claim C3 and is compared against `listMerge`. -/
def specStableMerge : List Int → List Int → List Int
  | [], l2 => l2
  | l1, [] => l1
  | y :: l1, x :: l2 =>
      if x < y then x :: specStableMerge (y :: l1) l2
      else y :: specStableMerge l1 (x :: l2)
termination_by l1 l2 => l1.length + l2.length

/-- One inner `for` pass of `List::sort` (src/list.cpp:410) over a nonempty
suffix, carrying the value at `it` as `x`: on `*next_it < *it` the two values
are swapped (`std::iter_swap`) and `++it` moves onto the carried larger value;
the Bool is the `swapped` flag accumulated over the pass. -/
def bubbleAux : Int → List Int → List Int × Bool
  | x, [] => ([x], false)
  | x, y :: rest =>
      if y < x then (y :: (bubbleAux x rest).1, true)
      else (x :: (bubbleAux y rest).1, (bubbleAux y rest).2)

/-- One full pass of the `do`/`while` body of `List::sort`. -/
def bubblePass (l : List Int) : List Int × Bool :=
  match l with
  | [] => ([], false)
  | x :: rest => bubbleAux x rest

/-- Number of inverted pairs; termination measure for the `do ... while
(swapped)` loop of `List::sort`. -/
def inversions : List Int → Nat
  | [] => 0
  | x :: rest => rest.countP (fun z => decide (z < x)) + inversions rest

/-- The `do { ... } while (swapped)` loop of `List::sort` (src/list.cpp:410),
with explicit fuel.  Each pass that reports `swapped = true` strictly
decreases `inversions` (theorem `bubblePass_inversions_lt` below), so with
fuel `inversions l + 1` the fuel is never exhausted and this equals the
unbounded loop; `bubbleFuel_fuel_irrelevant` below shows the fuel choice is
immaterial beyond that bound. -/
def bubbleFuel : Nat → List Int → List Int
  | 0, l => l
  | n + 1, l =>
      if (bubblePass l).2 then bubbleFuel n (bubblePass l).1
      else (bubblePass l).1

/-- `List::sort` (src/list.cpp:410): guarded by `size_ > 1`, then the
swap-until-clean loop. -/
def sortList (l : List Int) : List Int :=
  if 1 < l.length then bubbleFuel (inversions l + 1) l else l

/-! ## Pointer/heap model -/

/-- A node address.  `Base_node` sub-objects (the sentinels) and `Node`
objects are all addresses into one heap. -/
abbrev Addr := Nat

/-- One node: the two link fields of `Base_node` plus the value slot of
`Node`.  For a sentinel the value slot is a dummy that no correct traversal
reads, mirroring the value-less `Base_node`. -/
structure HNode where
  prev : Addr
  next : Addr
  val : Int
deriving DecidableEq, Repr

/-- The heap: association list from addresses to nodes. -/
abbrev NodeHeap := List (Addr × HNode)

/-- Read a node (reads of unmapped addresses never occur in the modelled
runs; a dummy node is returned to keep the function total). -/
def hGet (h : NodeHeap) (a : Addr) : HNode :=
  (h.lookup a).getD ⟨0, 0, 0⟩

/-- Write a node. -/
def hSet (h : NodeHeap) (a : Addr) (n : HNode) : NodeHeap :=
  h.map (fun p => if p.1 = a then (a, n) else p)

/-- `a->next = x`. -/
def setNext (h : NodeHeap) (a : Addr) (x : Addr) : NodeHeap :=
  hSet h a { hGet h a with next := x }

/-- `a->prev = x`. -/
def setPrev (h : NodeHeap) (a : Addr) (x : Addr) : NodeHeap :=
  hSet h a { hGet h a with prev := x }

/-- A list object: the address of its embedded sentinel `base_node_` (which
is also the identity of the object, `this == &other` iff the sentinel
addresses agree) and its `size_` counter. -/
structure ListSt where
  sent : Addr
  size : Nat
deriving DecidableEq, Repr

/-- The local link consistency of spec invariant 1 at one node:
`node.next.prev == node` and `node.prev.next == node`. -/
def nodeOk (h : NodeHeap) (a : Addr) : Bool :=
  ((hGet h (hGet h a).next).prev = a) && ((hGet h (hGet h a).prev).next = a)

/-- Walk `next` from `cur`, checking `nodeOk` at every visited node, until
the walk returns to the sentinel; `false` if it does not close within the
fuel. -/
def cycleOk (h : NodeHeap) (sent : Addr) : Nat → Addr → Bool
  | 0, _ => false
  | n + 1, cur =>
      nodeOk h cur &&
        (if (hGet h cur).next = sent then true
         else cycleOk h sent n (hGet h cur).next)

/-- Spec invariant 1 for the list with sentinel `sent`: the link graph is a
single doubly-linked cycle through the sentinel, every node on it locally
consistent. -/
def invariantOk (h : NodeHeap) (sent : Addr) (fuel : Nat) : Bool :=
  cycleOk h sent fuel sent

/-- Values along `next` starting at `cur` until the sentinel is reached
(fuel-bounded): the observable element sequence of a list. -/
def seqFrom (h : NodeHeap) (sent : Addr) : Nat → Addr → List Int
  | 0, _ => []
  | n + 1, cur =>
      if cur = sent then []
      else (hGet h cur).val :: seqFrom h sent n (hGet h cur).next

/-- The element sequence of the list with sentinel `sent`: traverse from
`sentinel.next`. -/
def seqVals (h : NodeHeap) (sent : Addr) (fuel : Nat) : List Int :=
  seqFrom h sent fuel (hGet h sent).next

/-- `std::distance(first, last)` on the bidirectional iterators: count `next`
steps from `cur` to `target` (fuel-bounded). -/
def distFuel (h : NodeHeap) (target : Addr) : Nat → Addr → Nat
  | 0, _ => 0
  | n + 1, cur =>
      if cur = target then 0 else distFuel h target n (hGet h cur).next + 1

/-- `List::splice(pos, other, first, last)` (src/list.cpp:522), every pointer
read and write in exact statement order.  Note the source reads
`last.ptr_->prev` again after the statement `next_last->prev = prev_first`
has overwritten it; the translation reads from the current heap exactly as
the machine would. -/
def spliceRange (h : NodeHeap) (self other : ListSt)
    (pos first last : Addr) : NodeHeap × ListSt × ListSt :=
  if first = last then (h, self, other)
  else
    let pf := (hGet h first).prev
    let h1 := setNext h pf last
    let h2 := setPrev h1 last pf
    let h3 := setPrev h2 first (hGet h2 pos).prev
    let h4 := setNext h3 (hGet h3 last).prev pos
    let h5 := setNext h4 (hGet h4 pos).prev first
    let h6 := setPrev h5 pos (hGet h5 last).prev
    let d := distFuel h6 last (h6.length + 1) first
    (h6, ⟨self.sent, self.size + d⟩, ⟨other.sent, other.size - d⟩)

/-- `List::splice(pos, other, it)` (src/list.cpp:516): `next_it =
std::next(it)` is read before the range splice runs. -/
def spliceOne (h : NodeHeap) (self other : ListSt) (pos it : Addr) :
    NodeHeap × ListSt × ListSt :=
  spliceRange h self other pos it (hGet h it).next

/-- `List::splice(pos, other)` (src/list.cpp:507): early return on
`this == &other || other.empty()`, then the whole of `other` — the range
`[other.begin(), other.end())` — is range-spliced. -/
def spliceWhole (h : NodeHeap) (self other : ListSt) (pos : Addr) :
    NodeHeap × ListSt × ListSt :=
  if self.sent = other.sent ∨ other.size = 0 then (h, self, other)
  else spliceRange h self other pos (hGet h other.sent).next other.sent

/-- `List::swap(other)` (src/list.cpp:427): `std::swap(base_node_,
other.base_node_)` exchanges exactly the `prev`/`next` fields of the two
sentinel objects (the value slot is not part of `Base_node`), then the sizes
are exchanged.  No other node is touched. -/
def swapLists (h : NodeHeap) (a b : ListSt) :
    NodeHeap × ListSt × ListSt :=
  let na := hGet h a.sent
  let nb := hGet h b.sent
  let h1 := hSet h a.sent ⟨nb.prev, nb.next, na.val⟩
  let h2 := hSet h1 b.sent ⟨na.prev, na.next, nb.val⟩
  (h2, ⟨a.sent, b.size⟩, ⟨b.sent, a.size⟩)

/-- Concrete well-formed configuration for the splice claims: list `A = [1,
2]` with sentinel at address 0 and nodes 1, 2; list `B = [5, 7, 9]` with
sentinel at address 3 and nodes 4, 5, 6. -/
def exHeapAB : NodeHeap :=
  [(0, ⟨2, 1, 0⟩), (1, ⟨0, 2, 1⟩), (2, ⟨1, 0, 2⟩),
   (3, ⟨6, 4, 0⟩), (4, ⟨3, 5, 5⟩), (5, ⟨4, 6, 7⟩), (6, ⟨5, 3, 9⟩)]

/-- List object `A = [1, 2]` of `exHeapAB`. -/
def exA : ListSt := ⟨0, 2⟩

/-- List object `B = [5, 7, 9]` of `exHeapAB`. -/
def exB : ListSt := ⟨3, 3⟩

/-- Concrete well-formed configuration for the swap claims: list `a = [1]`
with sentinel at address 0 and node 1; list `b = [2, 3]` with sentinel at
address 2 and nodes 3, 4. -/
def swapHeap : NodeHeap :=
  [(0, ⟨1, 1, 0⟩), (1, ⟨0, 0, 1⟩),
   (2, ⟨4, 3, 0⟩), (3, ⟨2, 4, 2⟩), (4, ⟨3, 2, 3⟩)]

/-- List object `a = [1]` of `swapHeap`. -/
def swA : ListSt := ⟨0, 1⟩

/-- List object `b = [2, 3]` of `swapHeap`. -/
def swB : ListSt := ⟨2, 2⟩

/-! ## Claims C1, C2, C6, C9: splice and swap at the pointer level -/

/-- C1 (code bug): from a well-formed configuration (both link cycles closed
and locally consistent), the single-node splice of the node holding 7 from B
into A leaves the cycle invariant false, and the sentinel-field swap likewise
leaves it false — the public operations splice and swap do not restore the
single doubly-linked cycle through the sentinel. -/
theorem splice_swap_break_cycle_invariant :
    invariantOk exHeapAB 0 10 = true ∧
    invariantOk exHeapAB 3 10 = true ∧
    invariantOk (spliceOne exHeapAB exA exB 1 5).1 0 10 = false ∧
    invariantOk swapHeap 0 10 = true ∧
    invariantOk swapHeap 2 10 = true ∧
    invariantOk (swapLists swapHeap swA swB).1 0 10 = false := by
  decide

/-- C2 (code bug): for A = [1, 2], B = [5, 7, 9] and A.splice(A.begin(), B,
cursor to 7), both size counters do change by exactly one, but the link
rewiring is wrong (the source reads last.ptr_->prev after having overwritten
it): the forward traversal of A afterwards reads 7, 9, then runs through the
sentinel of B (dummy value 0) and the node 5 before reaching 1, 2 — not the
claimed [7, 1, 2] — and the traversal of B is [5, 1, 2, 0, 7, 9], not
[5, 9]. -/
theorem splice_single_seven_garbles_lists :
    seqVals exHeapAB 0 10 = [1, 2] ∧
    seqVals exHeapAB 3 10 = [5, 7, 9] ∧
    (spliceOne exHeapAB exA exB 1 5).2.1.size = 3 ∧
    (spliceOne exHeapAB exA exB 1 5).2.2.size = 2 ∧
    seqVals (spliceOne exHeapAB exA exB 1 5).1 0 10 = [7, 9, 0, 5, 1, 2] ∧
    seqVals (spliceOne exHeapAB exA exB 1 5).1 3 10 = [5, 1, 2, 0, 7, 9] ∧
    [7, 9, 0, 5, 1, 2] ≠ ([7, 1, 2] : List Int) := by
  decide

/-- C6 (code bug): swap exchanges only the link fields of the two sentinel
objects and the two size counters; the neighbour nodes still point at the old
sentinels, so for a = [1], b = [2, 3] the traversal of a after a.swap(b)
reads 2, 3, then the sentinel of b (dummy 0) and the old node holding 1 —
the sequences are not exchanged even though the sizes are. -/
theorem swap_does_not_exchange_sequences :
    seqVals swapHeap 0 10 = [1] ∧
    seqVals swapHeap 2 10 = [2, 3] ∧
    (swapLists swapHeap swA swB).2.1.size = 2 ∧
    (swapLists swapHeap swA swB).2.2.size = 1 ∧
    seqVals (swapLists swapHeap swA swB).1 0 10 = [2, 3, 0, 1] ∧
    [2, 3, 0, 1] ≠ ([2, 3] : List Int) := by
  decide

/-- C9: the whole-list splice overload with the source list equal to the
destination list returns through the `this == &other` guard before any link,
size or heap cell is touched: the state is returned unchanged. -/
theorem splice_whole_self_noop (h : NodeHeap) (l : ListSt) (pos : Addr) :
    spliceWhole h l l pos = (h, l, l) := by
  simp [spliceWhole]

/-! ## Claims C4, C5: erase error reporting -/

/-- C4 counterexample: on the empty list the only cursor is the end cursor
(index 0 = length), and erase there reports invalidPosition — the claim that
erase on an empty list fails with emptyContainer is false. -/
theorem erase_empty_reports_invalid_position :
    eraseAt [] 0 = .error .invalidPosition ∧
    ListErr.invalidPosition ≠ ListErr.emptyContainer :=
  ⟨rfl, by decide⟩

/-- C4 (amended): erase checks for the end cursor first, so with a cursor
into the list it fails with invalidPosition exactly when the cursor is the
end cursor — in particular on an empty list, whose only cursor is the end
cursor, the failure is invalidPosition, never emptyContainer — and otherwise
it removes the node at the cursor and returns the cursor of its former
successor. -/
theorem erase_checks_end_cursor_first (l : List Int) (pos : Nat)
    (hpos : pos ≤ l.length) :
    (pos = l.length → eraseAt l pos = .error .invalidPosition) ∧
    (pos < l.length →
      eraseAt l pos = .ok (l.take pos ++ l.drop (pos + 1), pos)) := by
  constructor
  · intro h
    simp [eraseAt, h]
  · intro h
    have h1 : ¬ pos = l.length := Nat.ne_of_lt h
    have h2 : ¬ l.length = 0 := by omega
    simp [eraseAt, h1, h2]

/-- Witness for C4 at concrete inputs: the end cursor of [5, 6, 7] fails with
invalidPosition, and erasing at index 1 removes the 6. -/
theorem erase_checks_end_cursor_first_witness :
    eraseAt [5, 6, 7] 3 = .error .invalidPosition ∧
    eraseAt [5, 6, 7] 1 = .ok ([5, 7], 1) := by
  constructor
  · exact (erase_checks_end_cursor_first [5, 6, 7] 3 (by decide)).1 (by decide)
  · exact ((erase_checks_end_cursor_first [5, 6, 7] 1 (by decide)).2
      (by decide)).trans (by rfl)

/-- C5 counterexample: with first == last both equal to the end cursor (index
1 of the one-element list [1]), the range erase reports invalidPosition
instead of the claimed no-op, because the end-bound check precedes the
first == last check. -/
theorem erase_range_equal_end_cursors_throw :
    eraseRange [1] 1 1 = .error .invalidPosition ∧
    (Except.error .invalidPosition : Except ListErr (List Int × Nat)) ≠
      .ok ([1], 1) :=
  ⟨rfl, fun h => Except.noConfusion h⟩

/-- C5 (amended): for equal cursors first == last the range erase is a no-op
returning last — but only when they are not the end cursor; when both equal
the end cursor the preceding end-bound check fires and the call fails with
invalidPosition. -/
theorem erase_range_equal_cursors (l : List Int) (pos : Nat)
    (hpos : pos ≤ l.length) :
    (pos < l.length → eraseRange l pos pos = .ok (l, pos)) ∧
    (pos = l.length → eraseRange l pos pos = .error .invalidPosition) := by
  constructor
  · intro h
    have h1 : ¬ pos = l.length := Nat.ne_of_lt h
    simp [eraseRange, h1]
  · intro h
    simp [eraseRange, h]

/-- Witness for C5 at concrete inputs: equal inner cursors of [4, 5] are a
no-op, equal end cursors fail. -/
theorem erase_range_equal_cursors_witness :
    eraseRange [4, 5] 1 1 = .ok ([4, 5], 1) ∧
    eraseRange [4, 5] 2 2 = .error .invalidPosition := by
  constructor
  · exact (erase_range_equal_cursors [4, 5] 1 (by decide)).1 (by decide)
  · exact (erase_range_equal_cursors [4, 5] 2 (by decide)).2 (by decide)

/-! ## Claim C10: count insert with count zero -/

/-- C10: the count overload of insert with count = 0 runs its loop zero
times: the sequence is unchanged and the returned cursor is the index it was
given, i.e. a cursor to the same node. -/
theorem insert_count_zero_noop (l : List Int) (pos : Nat) (v : Int)
    (hpos : pos ≤ l.length) :
    insertCount l pos 0 v = (l, pos) := rfl

/-- Witness for C10 at a concrete input. -/
theorem insert_count_zero_noop_witness :
    insertCount [3, 4] 1 0 7 = ([3, 4], 1) :=
  insert_count_zero_noop [3, 4] 1 7 (by decide)

/-! ## Claim C7: range insert -/

/-- C7: the range overload of insert walks the source backwards inserting
each element before the previously inserted one, so the net effect places the
whole source range, in its original source order, immediately before the
cursor, leaving the prefix before the cursor and the suffix from the cursor
on unchanged; the returned cursor indexes the first inserted element
(or the original position for an empty range). -/
theorem insert_range_keeps_source_order (l : List Int) (pos : Nat)
    (src : List Int) (hpos : pos ≤ l.length) :
    insertRange l pos src = (l.take pos ++ src ++ l.drop pos, pos) := by
  induction src with
  | nil => simp [insertRange]
  | cons a src ih =>
    have hlen : (l.take pos).length = pos := by
      rw [List.length_take]; omega
    unfold insertRange at ih ⊢
    rw [List.foldr_cons, ih]
    simp only [insertAt, Prod.mk.injEq, and_true]
    rw [List.append_assoc, List.take_left' hlen, List.drop_left' hlen]
    simp

/-- Witness for C7 at a concrete input: inserting the range [2, 3] before
index 1 of [1, 4] yields [1, 2, 3, 4], not a reversed interleaving. -/
theorem insert_range_keeps_source_order_witness :
    insertRange [1, 4] 1 [2, 3] = ([1, 2, 3, 4], 1) :=
  (insert_range_keeps_source_order [1, 4] 1 [2, 3] (by decide)).trans (by rfl)

/-! ## Claim C3: merge -/

/-- The inner advance of merge in closed form: it walks past the prefix of
elements not greater than x (strictly: those y with not x < y) and inserts x
right after them. -/
theorem mergeStep_eq (rest1 : List Int) : ∀ (acc : List Int) (x : Int),
    mergeStep acc rest1 x =
      (acc ++ rest1.takeWhile (fun y => !decide (x < y)) ++ [x],
       rest1.dropWhile (fun y => !decide (x < y))) := by
  induction rest1 with
  | nil => intro acc x; simp [mergeStep]
  | cons y r1 ih =>
    intro acc x
    by_cases h : x < y
    · simp [mergeStep, h]
    · simp [mergeStep, h, ih]

/-- Right-nil case of the spec-side merge. -/
theorem specStableMerge_nil_right (l1 : List Int) :
    specStableMerge l1 [] = l1 := by
  cases l1 <;> simp [specStableMerge]

/-- Cons case of the spec-side merge in the same closed form as
`mergeStep_eq`. -/
theorem specStableMerge_cons_right (x : Int) (l2 : List Int) :
    ∀ l1 : List Int,
      specStableMerge l1 (x :: l2) =
        l1.takeWhile (fun y => !decide (x < y)) ++
          x :: specStableMerge (l1.dropWhile (fun y => !decide (x < y))) l2 := by
  intro l1
  induction l1 with
  | nil => simp [specStableMerge]
  | cons y l1 ih =>
    by_cases h : x < y
    · simp [specStableMerge, h]
    · simp [specStableMerge, h, ih]

/-- The merge loop of the source equals the spec-side stable merge appended
to the already processed prefix, and leaves the other list empty. -/
theorem mergeLoop_eq (r2 : List Int) : ∀ (acc r1 : List Int),
    mergeLoop acc r1 r2 = (acc ++ specStableMerge r1 r2, []) := by
  induction r2 with
  | nil => intro acc r1; simp [mergeLoop, specStableMerge_nil_right]
  | cons x r2 ih =>
    intro acc r1
    rw [mergeLoop, mergeStep_eq, ih]
    rw [specStableMerge_cons_right]
    simp

/-- The spec-side merge is a permutation of the concatenation: no element is
created, lost or duplicated. -/
theorem specStableMerge_perm : ∀ (l2 l1 : List Int),
    List.Perm (specStableMerge l1 l2) (l1 ++ l2) := by
  intro l2
  induction l2 with
  | nil => intro l1; simp [specStableMerge_nil_right]
  | cons x l2 ihx =>
    intro l1
    induction l1 with
    | nil => simp [specStableMerge]
    | cons y l1 ihy =>
      by_cases h : x < y
      · simp only [specStableMerge, if_pos h]
        exact ((ihx (y :: l1)).cons x).trans List.perm_middle.symm
      · simp only [specStableMerge, if_neg h]
        simpa using ihy.cons y

/-- The spec-side merge of two ascending sequences is ascending. -/
theorem specStableMerge_sorted : ∀ (l2 l1 : List Int),
    List.Sorted (· ≤ ·) l1 → List.Sorted (· ≤ ·) l2 →
    List.Sorted (· ≤ ·) (specStableMerge l1 l2) := by
  intro l2
  induction l2 with
  | nil =>
    intro l1 h1 h2
    simpa [specStableMerge_nil_right] using h1
  | cons x l2 ihx =>
    intro l1
    induction l1 with
    | nil =>
      intro h1 h2
      simpa [specStableMerge] using h2
    | cons y l1 ihy =>
      intro h1 h2
      by_cases h : x < y
      · simp only [specStableMerge, if_pos h]
        rw [List.sorted_cons]
        refine ⟨?_, ihx (y :: l1) h1 h2.of_cons⟩
        intro b hb
        have hb2 : b ∈ (y :: l1) ++ l2 :=
          ((specStableMerge_perm l2 (y :: l1)).mem_iff).mp hb
        rcases List.mem_append.mp hb2 with hb3 | hb3
        · rcases List.mem_cons.mp hb3 with rfl | hb4
          · exact le_of_lt h
          · exact le_trans (le_of_lt h) (List.rel_of_sorted_cons h1 b hb4)
        · exact List.rel_of_sorted_cons h2 b hb3
      · simp only [specStableMerge, if_neg h]
        rw [List.sorted_cons]
        refine ⟨?_, ihy h1.of_cons h2⟩
        intro b hb
        have hb2 : b ∈ l1 ++ (x :: l2) :=
          ((specStableMerge_perm (x :: l2) l1).mem_iff).mp hb
        rcases List.mem_append.mp hb2 with hb3 | hb3
        · exact List.rel_of_sorted_cons h1 b hb3
        · rcases List.mem_cons.mp hb3 with rfl | hb4
          · exact not_lt.mp h
          · exact le_trans (not_lt.mp h) (List.rel_of_sorted_cons h2 b hb4)

/-- C3: on two individually ascending lists, merge leaves self holding
exactly the stable sorted merge of the two original sequences — equal
elements of self precede equal elements that came from other, as
`specStableMerge` keeps the self element whenever the other element is not
strictly smaller — that merged sequence is ascending and is a permutation of
the two inputs together, and other is left empty. -/
theorem merge_gives_stable_sorted_union (l1 l2 : List Int)
    (h1 : List.Sorted (· ≤ ·) l1) (h2 : List.Sorted (· ≤ ·) l2) :
    listMerge l1 l2 = (specStableMerge l1 l2, []) ∧
    List.Sorted (· ≤ ·) (specStableMerge l1 l2) ∧
    List.Perm (specStableMerge l1 l2) (l1 ++ l2) := by
  refine ⟨?_, specStableMerge_sorted l2 l1 h1 h2, specStableMerge_perm l2 l1⟩
  simpa [listMerge] using mergeLoop_eq l2 [] l1

/-- Witness for C3 at the inputs of the claim: merging A = [1, 3, 5] with
B = [2, 4] yields A = [1, 2, 3, 4, 5] and B = []. -/
theorem merge_gives_stable_sorted_union_witness :
    listMerge [1, 3, 5] [2, 4] = ([1, 2, 3, 4, 5], []) ∧
    List.Sorted (· ≤ ·) (specStableMerge [1, 3, 5] [2, 4]) := by
  have h := merge_gives_stable_sorted_union [1, 3, 5] [2, 4]
    (by decide) (by decide)
  exact ⟨by decide, h.2.1⟩

/-! ## Claim C8: sort -/

/-- One pass only swaps adjacent values: the multiset is unchanged. -/
theorem bubbleAux_perm : ∀ (rest : List Int) (x : Int),
    List.Perm (bubbleAux x rest).1 (x :: rest) := by
  intro rest
  induction rest with
  | nil => intro x; simp [bubbleAux]
  | cons y r ih =>
    intro x
    by_cases h : y < x
    · simp only [bubbleAux, if_pos h]
      exact ((ih x).cons y).trans (List.Perm.swap x y r)
    · simp only [bubbleAux, if_neg h]
      exact (ih y).cons x

/-- A pass reporting no swap did not change the suffix. -/
theorem bubbleAux_false_eq : ∀ (rest : List Int) (x : Int),
    (bubbleAux x rest).2 = false → (bubbleAux x rest).1 = x :: rest := by
  intro rest
  induction rest with
  | nil => intro x _; simp [bubbleAux]
  | cons y r ih =>
    intro x hf
    by_cases h : y < x
    · simp [bubbleAux, h] at hf
    · simp only [bubbleAux, if_neg h] at hf ⊢
      rw [ih y hf]

/-- A pass reporting no swap certifies the suffix ascending. -/
theorem bubbleAux_false_sorted : ∀ (rest : List Int) (x : Int),
    (bubbleAux x rest).2 = false → List.Chain' (· ≤ ·) (x :: rest) := by
  intro rest
  induction rest with
  | nil => intro x _; simp
  | cons y r ih =>
    intro x hf
    by_cases h : y < x
    · simp [bubbleAux, h] at hf
    · simp only [bubbleAux, if_neg h] at hf
      exact List.chain'_cons.mpr ⟨not_lt.mp h, ih y hf⟩

/-- A pass over an already ascending suffix changes nothing and reports no
swap. -/
theorem bubbleAux_of_sorted : ∀ (rest : List Int) (x : Int),
    List.Chain' (· ≤ ·) (x :: rest) → bubbleAux x rest = (x :: rest, false) := by
  intro rest
  induction rest with
  | nil => intro x _; simp [bubbleAux]
  | cons y r ih =>
    intro x hc
    rcases List.chain'_cons.mp hc with ⟨hxy, hyr⟩
    have h : ¬ y < x := not_lt.mpr hxy
    simp only [bubbleAux, if_neg h, ih y hyr]

/-- A pass never increases the inversion count. -/
theorem bubbleAux_inversions_le : ∀ (rest : List Int) (x : Int),
    inversions (bubbleAux x rest).1 ≤ inversions (x :: rest) := by
  intro rest
  induction rest with
  | nil => intro x; simp [bubbleAux, inversions]
  | cons y r ih =>
    intro x
    by_cases h : y < x
    · simp only [bubbleAux, if_pos h]
      have hcount : ((bubbleAux x r).1.countP (fun z => decide (z < y)))
          = (x :: r).countP (fun z => decide (z < y)) :=
        (bubbleAux_perm r x).countP_eq _
      have hcx : (x :: r).countP (fun z => decide (z < y))
          = r.countP (fun z => decide (z < y)) := by
        simp [List.countP_cons, lt_asymm h]
      have hcy : (y :: r).countP (fun z => decide (z < x))
          = r.countP (fun z => decide (z < x)) + 1 := by
        simp [List.countP_cons, h]
      have ihx := ih x
      simp only [inversions, hcount, hcx, hcy] at ihx ⊢
      omega
    · simp only [bubbleAux, if_neg h]
      have hcount : ((bubbleAux y r).1.countP (fun z => decide (z < x)))
          = (y :: r).countP (fun z => decide (z < x)) :=
        (bubbleAux_perm r y).countP_eq _
      have ihy := ih y
      simp only [inversions, List.countP_cons, hcount] at ihy ⊢
      omega

/-- A pass reporting a swap strictly decreases the inversion count. -/
theorem bubbleAux_inversions_lt : ∀ (rest : List Int) (x : Int),
    (bubbleAux x rest).2 = true →
    inversions (bubbleAux x rest).1 < inversions (x :: rest) := by
  intro rest
  induction rest with
  | nil => intro x hf; simp [bubbleAux] at hf
  | cons y r ih =>
    intro x hf
    by_cases h : y < x
    · simp only [bubbleAux, if_pos h]
      have hcount : ((bubbleAux x r).1.countP (fun z => decide (z < y)))
          = (x :: r).countP (fun z => decide (z < y)) :=
        (bubbleAux_perm r x).countP_eq _
      have hcx : (x :: r).countP (fun z => decide (z < y))
          = r.countP (fun z => decide (z < y)) := by
        simp [List.countP_cons, lt_asymm h]
      have hcy : (y :: r).countP (fun z => decide (z < x))
          = r.countP (fun z => decide (z < x)) + 1 := by
        simp [List.countP_cons, h]
      have hle := bubbleAux_inversions_le r x
      simp only [inversions, hcount, hcx, hcy] at hle ⊢
      omega
    · simp only [bubbleAux, if_neg h] at hf ⊢
      have hcount : ((bubbleAux y r).1.countP (fun z => decide (z < x)))
          = (y :: r).countP (fun z => decide (z < x)) :=
        (bubbleAux_perm r y).countP_eq _
      have ihy := ih y hf
      simp only [inversions, List.countP_cons, hcount] at ihy ⊢
      omega

/-- Full-pass form of the strict decrease: justifies the fuel bound
`inversions l + 1` used by `bubbleFuel`. -/
theorem bubblePass_inversions_lt (l : List Int) :
    (bubblePass l).2 = true → inversions (bubblePass l).1 < inversions l := by
  cases l with
  | nil => intro hf; simp [bubblePass] at hf
  | cons x rest =>
    intro hf
    simpa [bubblePass] using
      bubbleAux_inversions_lt rest x (by simpa [bubblePass] using hf)

/-- Full-pass form: a clean pass returns the list unchanged. -/
theorem bubblePass_false_eq (l : List Int) :
    (bubblePass l).2 = false → (bubblePass l).1 = l := by
  cases l with
  | nil => intro _; simp [bubblePass]
  | cons x rest =>
    intro hf
    simpa [bubblePass] using
      bubbleAux_false_eq rest x (by simpa [bubblePass] using hf)

/-- Full-pass form: a clean pass certifies the list ascending. -/
theorem bubblePass_false_sorted (l : List Int) :
    (bubblePass l).2 = false → List.Chain' (· ≤ ·) l := by
  cases l with
  | nil => intro _; simp
  | cons x rest =>
    intro hf
    exact bubbleAux_false_sorted rest x (by simpa [bubblePass] using hf)

/-- Full-pass form: a pass over an ascending list is clean and is the
identity. -/
theorem bubblePass_of_sorted (l : List Int) (h : List.Chain' (· ≤ ·) l) :
    bubblePass l = (l, false) := by
  cases l with
  | nil => rfl
  | cons x rest => simpa [bubblePass] using bubbleAux_of_sorted rest x h

/-- With fuel exceeding the inversion count the loop of sort ends in an
ascending sequence (the last executed pass is clean). -/
theorem bubbleFuel_sorted : ∀ (n : Nat) (l : List Int), inversions l < n →
    List.Chain' (· ≤ ·) (bubbleFuel n l) := by
  intro n
  induction n with
  | zero => intro l h; omega
  | succ n ih =>
    intro l h
    by_cases hs : (bubblePass l).2 = true
    · have hlt := bubblePass_inversions_lt l hs
      simp only [bubbleFuel, hs, if_true]
      exact ih (bubblePass l).1 (by omega)
    · have hs2 : (bubblePass l).2 = false := by simpa using hs
      simp only [bubbleFuel, hs2, if_false, Bool.false_eq_true]
      rw [bubblePass_false_eq l hs2]
      exact bubblePass_false_sorted l hs2

/-- On an already ascending list the loop of sort exits after one clean pass
regardless of remaining fuel. -/
theorem bubbleFuel_of_sorted (n : Nat) (l : List Int)
    (h : List.Chain' (· ≤ ·) l) : bubbleFuel n l = l := by
  cases n with
  | zero => rfl
  | succ n =>
    have hp := bubblePass_of_sorted l h
    simp [bubbleFuel, hp]

/-- The fuel choice of `bubbleFuel` is immaterial beyond the inversion bound:
any two sufficient fuels give the same result, so `bubbleFuel (inversions l +
1) l` is the result of the unbounded `do`/`while` loop of the source. -/
theorem bubbleFuel_fuel_irrelevant : ∀ (n m : Nat) (l : List Int),
    inversions l < n → inversions l < m → bubbleFuel n l = bubbleFuel m l := by
  intro n
  induction n with
  | zero => intro m l hn _; omega
  | succ n ih =>
    intro m l hn hm
    cases m with
    | zero => omega
    | succ m =>
      by_cases hs : (bubblePass l).2 = true
      · have hlt := bubblePass_inversions_lt l hs
        simp only [bubbleFuel, hs, if_true]
        exact ih m (bubblePass l).1 (by omega) (by omega)
      · have hs2 : (bubblePass l).2 = false := by simpa using hs
        simp only [bubbleFuel, hs2, if_false, Bool.false_eq_true]

/-- The result of sort is ascending for every adjacent pair. -/
theorem sortList_sorted (l : List Int) : List.Chain' (· ≤ ·) (sortList l) := by
  by_cases h : 1 < l.length
  · unfold sortList
    rw [if_pos h]
    exact bubbleFuel_sorted (inversions l + 1) l (by omega)
  · unfold sortList
    rw [if_neg h]
    match l, h with
    | [], _ => simp
    | [x], _ => simp
    | x :: y :: t, h => simp at h

/-- Sort of an already ascending list is the identity. -/
theorem sortList_of_sorted (l : List Int) (h : List.Chain' (· ≤ ·) l) :
    sortList l = l := by
  unfold sortList
  by_cases hl : 1 < l.length
  · rw [if_pos hl]
    exact bubbleFuel_of_sorted _ l h
  · rw [if_neg hl]

/-- C8: sort is idempotent — a second sort returns the result of the first
unchanged — and after sort every adjacent pair of elements is ascending (no
element is strictly less than its predecessor). -/
theorem sort_idempotent_and_ascending (l : List Int) :
    sortList (sortList l) = sortList l ∧
    List.Chain' (· ≤ ·) (sortList l) :=
  ⟨sortList_of_sorted _ (sortList_sorted l), sortList_sorted l⟩
